import Mathlib

/-!
Verification of the `DataTable` component
(`src/components/DataTable/DataTable.tsx`).

The component is a generic sortable, selectable table.  We shallowly embed
its three concerns:

* the sort engine (`sortedData`, lines 19–34, and `handleSort`, lines 36–41);
* the selection tracker (`handleSelectAll`, lines 43–52, and
  `handleSelectRow`, lines 54–65);
* the presentation state machine (the early returns at lines 87–115 and the
  populated table at lines 117–182, including the per-cell rendering at
  lines 168–174).

Rows are modelled as total mappings from field names (strings) to integer
values: the sort comparator only consults `row[key]` through the host's
`<` / `>` ordering, and the claims under study quantify over sortable
(totally ordered) field values, for which the integers are a faithful
instance.  Cell rendering (which can see non-numeric values) gets its own
JavaScript-value model `JSValue` below.
-/

/-- A row of the table: a mapping from field name to (sortable) value,
mirroring the `T extends Record<string, any>` type parameter. -/
abbrev Row : Type := String → Int

/-- Sort direction, mirroring the `'asc' | 'desc'` union. -/
inductive Direction : Type where
  | asc : Direction
  | desc : Direction
deriving DecidableEq, Repr

/-- The sort configuration state, mirroring
`{ key: keyof T | null; direction: 'asc' | 'desc' }` (lines 14–17).
`none` models the JavaScript `null` key. -/
structure SortConfig : Type where
  key : Option String
  direction : Direction
deriving DecidableEq, Repr

/-- The comparator passed to `Array.prototype.sort` (lines 22–33):
`aValue < bValue` gives `-1` for ascending and `1` for descending,
`aValue > bValue` the opposite, ties give `0`. -/
def jsCompare (k : String) (dir : Direction) (a b : Row) : Int :=
  let aValue : Int := a k
  let bValue : Int := b k
  if aValue < bValue then
    match dir with
    | Direction.asc => -1
    | Direction.desc => 1
  else if bValue < aValue then
    match dir with
    | Direction.asc => 1
    | Direction.desc => -1
  else 0

/-- One step of a stable comparator sort: insert `x` into the already
sorted list `l`, after every element that strictly precedes it under the
comparator (`c y x < 0`) and before the first element that does not.
Elements of `l` come later in the input than `x` does, so placing `x`
before comparator-ties is exactly stability. -/
def insertC (c : Row → Row → Int) (x : Row) : List Row → List Row
  | [] => [x]
  | y :: ys => if c y x < 0 then y :: insertC c x ys else x :: y :: ys

/-- Stable sort by a comparator.  ECMAScript requires
`Array.prototype.sort` to be stable and to produce a list sorted with
respect to the comparator; for a consistent comparator (ours is induced by
a total order on `row[key]`) those two requirements determine the output
permutation uniquely, so this stable insertion sort is the behaviour of
`[...data].sort(comparator)` at line 22. -/
def sortStable (c : Row → Row → Int) : List Row → List Row
  | [] => []
  | x :: xs => insertC c x (sortStable c xs)

/-- The `sortedData` memo (lines 19–34): `if (!sortConfig.key) return data;`
— falsy keys are the `null` key and the empty-string key — otherwise a
stable sort of a copy of `data` by the comparator. -/
def sortedData (cfg : SortConfig) (data : List Row) : List Row :=
  match cfg.key with
  | none => data
  | some k => if k = "" then data else sortStable (jsCompare k cfg.direction) data

/-- The `handleSort` click handler (lines 36–41): the new key is always the
clicked key; the direction is `desc` exactly when the clicked key was
already active with direction `asc`. -/
def handleSort (prev : SortConfig) (k : String) : SortConfig :=
  { key := some k
    direction :=
      if prev.key = some k ∧ prev.direction = Direction.asc then Direction.desc
      else Direction.asc }

/-- Direction flip, used to state the toggle law for `handleSort`. -/
def Direction.toggle : Direction → Direction
  | Direction.asc => Direction.desc
  | Direction.desc => Direction.asc

/-! ### Generic stable insertion sort by a key projection

`insertC`/`sortStable` consult the comparator only through the test
`c y x < 0`.  For the comparator `jsCompare k dir` this test is a strict
order on the projected key values (`y k < x k` ascending, `x k < y k`
descending), so we develop the theory once for an arbitrary key projection
`f : Row → β` into a linear order and transport it to both directions
(descending via the order dual). -/

/-- Insertion of `x` after all elements whose `f`-key is strictly below. -/
def insertK {β : Type} [LinearOrder β] (f : Row → β) (x : Row) : List Row → List Row
  | [] => [x]
  | y :: ys => if f y < f x then y :: insertK f x ys else x :: y :: ys

/-- Stable insertion sort by the key projection `f`. -/
def isortK {β : Type} [LinearOrder β] (f : Row → β) : List Row → List Row
  | [] => []
  | x :: xs => insertK f x (isortK f xs)

theorem insertC_eq_insertK {β : Type} [LinearOrder β] (c : Row → Row → Int)
    (f : Row → β) (hc : ∀ a b : Row, c a b < 0 ↔ f a < f b) (x : Row) :
    ∀ l : List Row, insertC c x l = insertK f x l := by
  intro l
  induction l with
  | nil => rfl
  | cons y ys ih =>
    simp only [insertC, insertK, hc, ih]

theorem sortStable_eq_isortK {β : Type} [LinearOrder β] (c : Row → Row → Int)
    (f : Row → β) (hc : ∀ a b : Row, c a b < 0 ↔ f a < f b) :
    ∀ l : List Row, sortStable c l = isortK f l := by
  intro l
  induction l with
  | nil => rfl
  | cons x xs ih =>
    simp only [sortStable, isortK, ih, insertC_eq_insertK c f hc]

theorem jsCompare_asc_lt (k : String) (a b : Row) :
    jsCompare k Direction.asc a b < 0 ↔ a k < b k := by
  unfold jsCompare
  rcases lt_trichotomy (a k) (b k) with h | h | h
  · simp [h]
  · simp [h, lt_irrefl]
  · simp [h, not_lt_of_gt h]

theorem jsCompare_desc_lt (k : String) (a b : Row) :
    jsCompare k Direction.desc a b < 0 ↔
      OrderDual.toDual (a k) < OrderDual.toDual (b k) := by
  unfold jsCompare
  rcases lt_trichotomy (a k) (b k) with h | h | h
  · simp [h, not_lt_of_gt h, OrderDual.toDual_lt_toDual]
  · simp [h, lt_irrefl, OrderDual.toDual_lt_toDual]
  · simp [h, not_lt_of_gt h, OrderDual.toDual_lt_toDual]

/-! ### Stability of the insertion sort -/

theorem filter_insertK_pos {β : Type} [LinearOrder β] (f : Row → β)
    (p : Row → Bool) (x : Row) (hx : p x = true)
    (H : ∀ y : Row, p y = true → ¬ f y < f x) :
    ∀ l : List Row, (insertK f x l).filter p = x :: l.filter p := by
  intro l
  induction l with
  | nil => simp [insertK, hx]
  | cons y ys ih =>
    by_cases hlt : f y < f x
    · have hpy : p y = false := by
        cases hy : p y with
        | false => rfl
        | true => exact absurd hlt (H y hy)
      simp [insertK, hlt, hpy, ih]
    · simp [insertK, hlt, hx]

theorem filter_insertK_neg {β : Type} [LinearOrder β] (f : Row → β)
    (p : Row → Bool) (x : Row) (hx : p x = false) :
    ∀ l : List Row, (insertK f x l).filter p = l.filter p := by
  intro l
  induction l with
  | nil => simp [insertK, hx]
  | cons y ys ih =>
    by_cases hlt : f y < f x
    · simp [insertK, hlt, List.filter_cons, ih]
    · simp [insertK, hlt, hx]

theorem filter_isortK {β : Type} [LinearOrder β] (f : Row → β)
    (p : Row → Bool)
    (H : ∀ a b : Row, p a = true → p b = true → ¬ f a < f b) :
    ∀ l : List Row, (isortK f l).filter p = l.filter p := by
  intro l
  induction l with
  | nil => rfl
  | cons x xs ih =>
    cases hx : p x with
    | true =>
      have : (insertK f x (isortK f xs)).filter p = x :: (isortK f xs).filter p :=
        filter_insertK_pos f p x hx (fun y hy => H y x hy hx) (isortK f xs)
      simp [isortK, this, ih, hx]
    | false =>
      have : (insertK f x (isortK f xs)).filter p = (isortK f xs).filter p :=
        filter_insertK_neg f p x hx (isortK f xs)
      simp [isortK, this, ih, hx]

/-- C1: the sort engine is stable — for every data sequence, sort key and
direction, the rows whose value at the key equals any fixed value appear in
the output in exactly their original relative input order (their filtered
subsequences coincide). -/
theorem sort_stable_law (k : String) (dir : Direction) (data : List Row)
    (v : Int) :
    (sortedData ⟨some k, dir⟩ data).filter (fun r => decide (r k = v)) =
      data.filter (fun r => decide (r k = v)) := by
  unfold sortedData
  by_cases hk : k = ""
  · simp [hk]
  · simp only [hk, if_false]
    cases dir with
    | asc =>
      rw [sortStable_eq_isortK (jsCompare k Direction.asc) (fun r => r k)
        (fun a b => jsCompare_asc_lt k a b)]
      refine filter_isortK (fun r => r k) _ ?_ data
      intro a b ha hb
      have ha' : a k = v := of_decide_eq_true ha
      have hb' : b k = v := of_decide_eq_true hb
      simp [ha', hb']
    | desc =>
      rw [sortStable_eq_isortK (jsCompare k Direction.desc)
        (fun r => OrderDual.toDual (r k))
        (fun a b => jsCompare_desc_lt k a b)]
      refine filter_isortK (fun r => OrderDual.toDual (r k)) _ ?_ data
      intro a b ha hb
      have ha' : a k = v := of_decide_eq_true ha
      have hb' : b k = v := of_decide_eq_true hb
      simp [ha', hb']

/-! ### Sortedness, permutation, and the reversal law -/

theorem mem_insertK {β : Type} [LinearOrder β] (f : Row → β) (x z : Row) :
    ∀ l : List Row, z ∈ insertK f x l ↔ z = x ∨ z ∈ l := by
  intro l
  induction l with
  | nil => simp [insertK]
  | cons y ys ih =>
    by_cases hlt : f y < f x
    · simp [insertK, hlt, ih]
      tauto
    · simp [insertK, hlt]

theorem insertK_perm {β : Type} [LinearOrder β] (f : Row → β) (x : Row) :
    ∀ l : List Row, (insertK f x l).Perm (x :: l) := by
  intro l
  induction l with
  | nil => simp [insertK]
  | cons y ys ih =>
    by_cases hlt : f y < f x
    · simp only [insertK, hlt, if_true]
      exact (ih.cons y).trans (List.Perm.swap x y ys)
    · simp [insertK, hlt]

theorem isortK_perm {β : Type} [LinearOrder β] (f : Row → β) :
    ∀ l : List Row, (isortK f l).Perm l := by
  intro l
  induction l with
  | nil => simp [isortK]
  | cons x xs ih =>
    exact (insertK_perm f x (isortK f xs)).trans (ih.cons x)

theorem pairwise_insertK {β : Type} [LinearOrder β] (f : Row → β) (x : Row) :
    ∀ l : List Row, l.Pairwise (fun a b => f a ≤ f b) →
      (insertK f x l).Pairwise (fun a b => f a ≤ f b) := by
  intro l
  induction l with
  | nil => simp [insertK]
  | cons y ys ih =>
    intro hl
    rw [List.pairwise_cons] at hl
    by_cases hlt : f y < f x
    · simp only [insertK, hlt, if_true, List.pairwise_cons]
      refine ⟨?_, ih hl.2⟩
      intro z hz
      rcases (mem_insertK f x z ys).mp hz with rfl | hz'
      · exact le_of_lt hlt
      · exact hl.1 z hz'
    · simp only [insertK, hlt, if_false, List.pairwise_cons]
      refine ⟨?_, hl.1, hl.2⟩
      intro z hz
      have hxy : f x ≤ f y := le_of_not_lt hlt
      rcases List.mem_cons.mp hz with rfl | hz'
      · exact hxy
      · exact le_trans hxy (hl.1 z hz')

theorem isortK_sorted {β : Type} [LinearOrder β] (f : Row → β) :
    ∀ l : List Row, (isortK f l).Pairwise (fun a b => f a ≤ f b) := by
  intro l
  induction l with
  | nil => simp [isortK]
  | cons x xs ih => exact pairwise_insertK f x (isortK f xs) ih

theorem insertK_of_forall_lt {β : Type} [LinearOrder β] (f : Row → β) (x : Row) :
    ∀ l : List Row, (∀ y ∈ l, f y < f x) → insertK f x l = l ++ [x] := by
  intro l
  induction l with
  | nil => simp [insertK]
  | cons y ys ih =>
    intro h
    have hy : f y < f x := h y (List.mem_cons_self y ys)
    simp only [insertK, hy, if_true, List.cons_append]
    rw [ih (fun z hz => h z (List.mem_cons_of_mem y hz))]

theorem isortK_of_pairwise_gt {β : Type} [LinearOrder β] (f : Row → β) :
    ∀ l : List Row, l.Pairwise (fun a b => f b < f a) → isortK f l = l.reverse := by
  intro l
  induction l with
  | nil => intro _; rfl
  | cons x xs ih =>
    intro h
    rw [List.pairwise_cons] at h
    show insertK f x (isortK f xs) = (x :: xs).reverse
    rw [ih h.2, insertK_of_forall_lt f x xs.reverse
      (fun y hy => h.1 y (List.mem_reverse.mp hy)), List.reverse_cons]

/-- C2: on pairwise-distinct keys, sorting ascending and then sorting the
result descending yields the exact reverse of the ascending sort. -/
theorem sort_reverse_law (k : String) (data : List Row)
    (hk : k ≠ "")
    (hdist : data.Pairwise (fun a b => a k ≠ b k)) :
    sortedData ⟨some k, Direction.desc⟩ (sortedData ⟨some k, Direction.asc⟩ data) =
      (sortedData ⟨some k, Direction.asc⟩ data).reverse := by
  unfold sortedData
  simp only [hk, if_false]
  rw [sortStable_eq_isortK (jsCompare k Direction.asc) (fun r => r k)
    (fun a b => jsCompare_asc_lt k a b),
    sortStable_eq_isortK (jsCompare k Direction.desc)
    (fun r => OrderDual.toDual (r k)) (fun a b => jsCompare_desc_lt k a b)]
  have hsorted := isortK_sorted (fun r => r k) data
  have hperm := isortK_perm (fun r => r k) data
  have hne : (isortK (fun r => r k) data).Pairwise (fun a b => a k ≠ b k) :=
    (hperm.pairwise_iff (fun h => Ne.symm h)).mpr hdist
  have hstrict : (isortK (fun r => r k) data).Pairwise (fun a b => a k < b k) :=
    (hsorted.and hne).imp (fun h => lt_of_le_of_ne h.1 h.2)
  exact isortK_of_pairwise_gt (fun r => OrderDual.toDual (r k)) _
    (hstrict.imp (fun h => OrderDual.toDual_lt_toDual.mpr h))

/-- Concrete sample rows used in the closed witness theorems. -/
def rowA : Row := fun _ => 1

/-- Second concrete sample row (all fields 2). -/
def rowB : Row := fun _ => 2

/-- Third concrete sample row (all fields 3). -/
def rowC : Row := fun _ => 3

/-- Witness for C2 at a concrete two-row table with distinct keys. -/
theorem sort_reverse_law_witness :
    ("id" ≠ "" ∧ [rowB, rowA].Pairwise (fun a b => a "id" ≠ b "id")) ∧
    sortedData ⟨some "id", Direction.desc⟩
        (sortedData ⟨some "id", Direction.asc⟩ [rowB, rowA]) =
      (sortedData ⟨some "id", Direction.asc⟩ [rowB, rowA]).reverse :=
  ⟨⟨by decide, by simp [rowA, rowB]⟩,
    sort_reverse_law "id" [rowB, rowA] (by decide) (by simp [rowA, rowB])⟩

/-- C3: when the sort key is unset (`null`), the engine returns the data
sequence unmodified, for every direction in the configuration. -/
theorem sort_passthrough_null_key (dir : Direction) (data : List Row) :
    sortedData ⟨none, dir⟩ data = data := rfl

/-- C4: a click on header `k` always produces key `k`; the direction is the
toggle of the previous direction when `k` was already active, and ascending
otherwise.  Since `handleSort` is the complete click handler, no other
sort-configuration transition is possible. -/
theorem handleSort_transition (prev : SortConfig) (k : String) :
    handleSort prev k =
      ⟨some k, if prev.key = some k then prev.direction.toggle else Direction.asc⟩ := by
  rcases prev with ⟨pk, pd⟩
  by_cases hpk : pk = some k
  · cases pd <;> simp [handleSort, Direction.toggle, hpk]
  · cases pd <;> simp [handleSort, Direction.toggle, hpk]

/-- C9: the unset-key test `!sortConfig.key` is a falsiness check, so the
empty-string key behaves exactly like the `null` key: the data passes
through unmodified, and even after clicking a header whose key is the empty
string the engine still returns the data unmodified — such a column can
never be sorted. -/
theorem sort_empty_key_passthrough (dir : Direction) (data : List Row)
    (prev : SortConfig) :
    sortedData ⟨some "", dir⟩ data = data ∧
    sortedData (handleSort prev "") data = data := by
  constructor
  · simp [sortedData]
  · simp [sortedData, handleSort]

/-! ### The selection tracker

`selectedRows` is the `Set<number>` state of line 13, modelled as a
`Finset ℕ` (the JavaScript `Set` is consulted only through `has`, so
insertion order is irrelevant).  Each handler returns the new selection set
together with the payload passed to the `onRowSelect` callback. -/

/-- The callback payload computed at line 63:
`data.filter((_, i) => newSelectedRows.has(i))` — the rows whose position
lies in the selection set, kept in original input order. -/
def selectedSubset (data : List Row) (sel : Finset ℕ) : List Row :=
  (data.enum.filter (fun e => decide (e.1 ∈ sel))).map Prod.snd

/-- The `handleSelectAll` handler (lines 43–52): checked builds
`new Set(data.map((_, index) => index))` and reports the full data;
unchecked clears the set and reports the empty sequence. -/
def handleSelectAll (data : List Row) (checked : Bool) : Finset ℕ × List Row :=
  if checked then ((data.enum.map Prod.fst).toFinset, data)
  else (∅, [])

/-- The `handleSelectRow` handler (lines 54–65): adds or removes `index`
from the selection set and reports the filtered subset of the current
data. -/
def handleSelectRow (data : List Row) (selectedRows : Finset ℕ) (index : ℕ)
    (checked : Bool) : Finset ℕ × List Row :=
  let newSelectedRows :=
    if checked then insert index selectedRows else selectedRows.erase index
  (newSelectedRows, selectedSubset data newSelectedRows)

/-- One checked single-row toggle, threading the selection set and
remembering the callback payload it reports. -/
def selectStep (data : List Row) (st : Finset ℕ × Option (List Row)) (p : ℕ) :
    Finset ℕ × Option (List Row) :=
  ((handleSelectRow data st.1 p true).1, some (handleSelectRow data st.1 p true).2)

/-- A sequence of checked single-row toggles starting from the empty
selection; the second component is the last callback payload (`none` if no
toggle happened). -/
def selectSeq (data : List Row) (ps : List ℕ) : Finset ℕ × Option (List Row) :=
  ps.foldl (selectStep data) (∅, none)

/-- C5: `selectAll(true)` makes the selection set exactly the positions
`0..N-1` and reports the full data sequence in original order;
`selectAll(false)` empties the set and reports the empty sequence. -/
theorem selectAll_spec (data : List Row) :
    (handleSelectAll data true).1 = Finset.range data.length ∧
    (handleSelectAll data true).2 = data ∧
    (handleSelectAll data false).1 = ∅ ∧
    (handleSelectAll data false).2 = [] := by
  refine ⟨?_, rfl, rfl, rfl⟩
  ext i
  simp [handleSelectAll, List.enum_map_fst]

theorem selectSeq_go (data : List Row) :
    ∀ (ps : List ℕ) (s : Finset ℕ) (o : Option (List Row)), ps ≠ [] →
      ps.foldl (selectStep data) (s, o) =
        (s ∪ ps.toFinset, some (selectedSubset data (s ∪ ps.toFinset))) := by
  intro ps
  induction ps with
  | nil => intro s o h; exact absurd rfl h
  | cons p ps ih =>
    intro s o _
    cases hps : ps with
    | nil =>
      have hsp : s ∪ {p} = insert p s := by
        ext i
        simp [Finset.mem_union, Finset.mem_insert, or_comm]
      simp [selectStep, handleSelectRow, hsp]
    | cons q qs =>
      have hne : ps ≠ [] := by rw [hps]; exact List.cons_ne_nil q qs
      rw [← hps]
      show List.foldl (selectStep data) (selectStep data (s, o) p) ps = _
      have hstep : selectStep data (s, o) p =
          (insert p s, some (selectedSubset data (insert p s))) := rfl
      rw [hstep, ih (insert p s) _ hne]
      simp [List.toFinset_cons, Finset.insert_union, Finset.union_insert]

/-- C6: performing `selectRow(p, true)` for the positions of `ps`, starting
from an empty selection, ends with a callback payload equal to the rows at
positions `ps.toFinset` listed in ascending-position (original input)
order, and the result is independent of the order the toggles were
performed in. -/
theorem selectRow_batch_spec (data : List Row) (ps qs : List ℕ)
    (hps : ps ≠ []) (hqs : qs ≠ []) (hset : ps.toFinset = qs.toFinset) :
    (selectSeq data ps).2 =
      some ((data.enum.filter (fun e => decide (e.1 ∈ ps.toFinset))).map Prod.snd) ∧
    (selectSeq data ps).2 = (selectSeq data qs).2 := by
  unfold selectSeq
  rw [selectSeq_go data ps ∅ none hps, selectSeq_go data qs ∅ none hqs]
  constructor
  · simp [selectedSubset]
  · simp [hset]

/-- Witness for C6: three rows, positions `{0, 2}` toggled in two different
orders. -/
theorem selectRow_batch_spec_witness :
    (([2, 0] : List ℕ) ≠ [] ∧ ([0, 2] : List ℕ) ≠ [] ∧
      ([2, 0] : List ℕ).toFinset = ([0, 2] : List ℕ).toFinset) ∧
    ((selectSeq [rowA, rowB, rowC] [2, 0]).2 =
      some ((([rowA, rowB, rowC] : List Row).enum.filter
        (fun e => decide (e.1 ∈ ([2, 0] : List ℕ).toFinset))).map Prod.snd) ∧
      (selectSeq [rowA, rowB, rowC] [2, 0]).2 =
        (selectSeq [rowA, rowB, rowC] [0, 2]).2) :=
  ⟨⟨by decide, by decide, by decide⟩,
    selectRow_batch_spec [rowA, rowB, rowC] [2, 0] [0, 2]
      (by decide) (by decide) (by decide)⟩

/-- The reported subset is always a subsequence of the current data. -/
theorem selectedSubset_sublist (data : List Row) (sel : Finset ℕ) :
    (selectedSubset data sel).Sublist data := by
  unfold selectedSubset
  have h1 : (data.enum.filter (fun e => decide (e.1 ∈ sel))).Sublist data.enum :=
    List.filter_sublist data.enum
  have h2 := h1.map Prod.snd
  rwa [List.enum_map_snd] at h2

/-- Positions at or beyond the data length never contribute to the
reported subset. -/
theorem selectedSubset_trim (data : List Row) (sel : Finset ℕ) :
    selectedSubset data sel =
      selectedSubset data (sel.filter (fun p => p < data.length)) := by
  unfold selectedSubset
  refine congrArg (List.map Prod.snd) (List.filter_congr ?_)
  intro e he
  have hlt : e.1 < data.length := List.fst_lt_of_mem_enum he
  simp [Finset.mem_filter, hlt]

/-- C10: the payload reported by `selectRow` is the current data filtered
by set membership of position, hence always a subsequence of the current
data; positions at or beyond the data length are silently skipped, so the
payload never contains a phantom or out-of-bounds row. -/
theorem selectRow_payload_safe (data : List Row) (sel : Finset ℕ) (index : ℕ)
    (checked : Bool) :
    ((handleSelectRow data sel index checked).2).Sublist data ∧
    (handleSelectRow data sel index checked).2 =
      selectedSubset data
        (((handleSelectRow data sel index checked).1).filter
          (fun p => p < data.length)) :=
  ⟨selectedSubset_sublist data ((handleSelectRow data sel index checked).1),
    selectedSubset_trim data ((handleSelectRow data sel index checked).1)⟩

/-! ### The presentation state machine -/

/-- The three mutually exclusive render states produced by the component
body (lines 87–182). -/
inductive RenderState : Type where
  | skeleton (placeholderRows : ℕ) : RenderState
  | emptyState (message : String) : RenderState
  | table (rows : List Row) : RenderState

/-- The top-level render (lines 87–182): loading wins and draws the
`[...Array(5)]` skeleton placeholder rows (line 93); otherwise zero-length
data draws the empty message (lines 102–115); otherwise the populated
table over the sorted data. -/
def render (loading : Bool) (emptyMessage : String) (cfg : SortConfig)
    (data : List Row) : RenderState :=
  if loading then RenderState.skeleton 5
  else if data.length = 0 then RenderState.emptyState emptyMessage
  else RenderState.table (sortedData cfg data)

/-- C7: when the loading flag is set the component renders the loading
skeleton with exactly 5 placeholder rows, for every input; the empty state
is rendered exactly when loading is unset and the data sequence length is
zero. -/
theorem render_state_machine (loading : Bool) (msg : String)
    (cfg : SortConfig) (data : List Row) :
    (loading = true → render loading msg cfg data = RenderState.skeleton 5) ∧
    (render loading msg cfg data = RenderState.emptyState msg ↔
      loading = false ∧ data.length = 0) := by
  cases loading with
  | true => simp [render]
  | false =>
    by_cases hd : data.length = 0
    · simp [render, hd]
    · simp [render, hd]

/-- Witness for C7: loading with non-empty data renders the 5-row
skeleton; not loading with empty data renders the empty state. -/
theorem render_state_machine_witness :
    render true "No data available" ⟨none, Direction.asc⟩ [rowA] =
      RenderState.skeleton 5 ∧
    render false "No data available" ⟨none, Direction.asc⟩ [] =
      RenderState.emptyState "No data available" :=
  ⟨(render_state_machine true "No data available" ⟨none, Direction.asc⟩ [rowA]).1 rfl,
    (render_state_machine false "No data available" ⟨none, Direction.asc⟩ []).2.mpr
      ⟨rfl, rfl⟩⟩

/-! ### Cell rendering

Line 172 renders a cell without custom renderer as
`String(row[column.key] || '')`.  The `||` operator falls back on EVERY
falsy value, so the cell value model must distinguish the JavaScript value
kinds with their truthiness. -/

/-- A JavaScript value as seen by the cell renderer. -/
inductive JSValue : Type where
  | null : JSValue
  | undef : JSValue
  | bool (b : Bool) : JSValue
  | num (n : Int) : JSValue
  | str (s : String) : JSValue
deriving DecidableEq, Repr

/-- JavaScript truthiness: `null`, `undefined`, `false`, `0` and the empty
string are falsy. -/
def truthy : JSValue → Bool
  | JSValue.null => false
  | JSValue.undef => false
  | JSValue.bool b => b
  | JSValue.num n => decide (n ≠ 0)
  | JSValue.str s => decide (s ≠ "")

/-- The default string representation `String(v)`. -/
def jsToString : JSValue → String
  | JSValue.null => "null"
  | JSValue.undef => "undefined"
  | JSValue.bool true => "true"
  | JSValue.bool false => "false"
  | JSValue.num n => toString n
  | JSValue.str s => s

/-- One cell of the populated table (lines 170–172): the column's custom
renderer when present, else `String(row[column.key] || '')` — the value's
default string representation if the value is truthy, and `String('')`
otherwise. -/
def renderCell (customRender : Option (JSValue → String)) (v : JSValue) : String :=
  match customRender with
  | some f => f v
  | none => if truthy v then jsToString v else ""

/-- C8 counterexample: the claim says the value `0` displays its default
string representation `"0"`, but `0 || ''` is `''`, so the cell displays
the empty string. -/
theorem renderCell_zero_not_default :
    ¬ renderCell none (JSValue.num 0) = jsToString (JSValue.num 0) := by
  decide

/-- C8 (amended): without a custom renderer, a cell displays the value's
default string representation when the value is truthy and the empty
string when the value is falsy — for all falsy values (`null`,
`undefined`, `false`, `0`, the empty string), not only `null`/`undefined`;
with a custom renderer, the renderer's output is displayed. -/
theorem renderCell_spec (v : JSValue) :
    (truthy v = true → renderCell none v = jsToString v) ∧
    (truthy v = false → renderCell none v = "") ∧
    (∀ f : JSValue → String, renderCell (some f) v = f v) := by
  refine ⟨?_, ?_, fun f => rfl⟩
  · intro h
    simp [renderCell, h]
  · intro h
    simp [renderCell, h]

/-- Witness for the amended C8 at a truthy and a falsy value. -/
theorem renderCell_spec_witness :
    (truthy (JSValue.str "x") = true ∧
      renderCell none (JSValue.str "x") = jsToString (JSValue.str "x")) ∧
    (truthy (JSValue.bool false) = false ∧
      renderCell none (JSValue.bool false) = "") :=
  ⟨⟨by decide, (renderCell_spec (JSValue.str "x")).1 (by decide)⟩,
    ⟨by decide, (renderCell_spec (JSValue.bool false)).2.1 (by decide)⟩⟩
